import Mathlib

/-!
Verification of the symbolic string-constraint solver core
(`boolean_algebra/mod.rs`, `regular/regex.rs`, `state.rs`, `util.rs`)
against its specification.

The character domain is instantiated at `Char` (the `Domain for char`
instance of `util.rs`); `CharWrap` is embedded separately.  Rust's
`BTreeSet` is modelled as a sorted duplicate-free list, `HashSet` as a
list queried only through membership, and `HashMap<(S, Phi), Vec<T>>` as
an association list.  The non-structural recursion of
`From<Predicate> for SatisfiableSet` (its `Or` arm recurses on a freshly
built predicate) is given explicit fuel; `none` stands for a computation
that diverges or panics.
-/

set_option maxHeartbeats 4000000
set_option maxRecDepth 4000

/-- Rust's `bool`.  Inside the `Predicate` namespace the constructor name
`Predicate.Bool` shadows the built-in `Bool`, so signatures there use this
alias. -/
abbrev RustBool := Bool

/-- Modelled from the spec: the function-term language of component C2
(`transducer/term.rs` is not among the sources; only its use sites are).
Variants per section 3: identity, constant, finite first-match mapping,
predicate-guarded piecewise constant, and composition (apply the second
term first, then the first). -/
inductive Lambda (P : Type) where
  | Id : Lambda P
  | Constant : Char → Lambda P
  | Mapping : List (Char × Char) → Lambda P
  | Function : List (P × Char) → Lambda P
  | Composition : Lambda P → Lambda P → Lambda P

/-- The predicate language of `boolean_algebra/mod.rs` (`enum Predicate<T>`),
instantiated at the `char` domain. -/
inductive Predicate where
  | Bool : RustBool → Predicate
  | Eq : Char → Predicate
  | Range : Option Char → Option Char → Predicate
  | InSet : List Char → Predicate
  | And : Predicate → Predicate → Predicate
  | Or : Predicate → Predicate → Predicate
  | Not : Predicate → Predicate
  | WithLambda : Predicate → Lambda Predicate → Predicate

mutual

/-- `Predicate::denote`.  `Range` means `left <= arg && arg < right` with
missing bounds read as infinities. -/
def Predicate.denote : Predicate → Char → RustBool
  | .Bool b, _ => b
  | .Eq a, x => a == x
  | .Range l r, x =>
      (match l with | some lv => decide (lv ≤ x) | none => true)
        && (match r with | some rv => decide (x < rv) | none => true)
  | .InSet els, x => decide (x ∈ els)
  | .And p q, x => Predicate.denote p x && Predicate.denote q x
  | .Or p q, x => Predicate.denote p x || Predicate.denote q x
  | .Not p, x => !Predicate.denote p x
  | .WithLambda p f, x =>
      match Lambda.apply f x with
      | some y => Predicate.denote p y
      | none => false

/-- Modelled from the spec: `apply(f, x)` of section 4.2 / section 3.
A mapping or piecewise function without a matching entry is
"undefined/falsifying", rendered as `none`. -/
def Lambda.apply : Lambda Predicate → Char → Option Char
  | .Id, x => some x
  | .Constant c, _ => some c
  | .Mapping m, x => (m.find? (fun kv => kv.1 == x)).map (fun kv => kv.2)
  | .Function l, x => Lambda.applyFunction l x
  | .Composition f g, x =>
      match Lambda.apply g x with
      | some y => Lambda.apply f y
      | none => none

/-- First predicate whose denotation holds wins. -/
def Lambda.applyFunction : List (Predicate × Char) → Char → Option Char
  | [], _ => none
  | (p, c) :: rest, x =>
      if Predicate.denote p x then some c else Lambda.applyFunction rest x

end

mutual

/-- The hand-written `PartialEq for Predicate`: `Bool` compares by value,
`And`/`Or` are compared commutatively, everything else structurally. -/
def Predicate.eq : Predicate → Predicate → RustBool
  | .Bool b1, .Bool b2 => b1 == b2
  | .Eq c1, .Eq c2 => c1 == c2
  | .Range l1 r1, .Range l2 r2 => l1 == l2 && r1 == r2
  | .InSet e1, .InSet e2 => e1 == e2
  | .And p1 p2, .And q1 q2 =>
      (Predicate.eq p1 q1 && Predicate.eq p2 q2)
        || (Predicate.eq p1 q2 && Predicate.eq p2 q1)
  | .Or p1 p2, .Or q1 q2 =>
      (Predicate.eq p1 q1 && Predicate.eq p2 q2)
        || (Predicate.eq p1 q2 && Predicate.eq p2 q1)
  | .Not p1, .Not p2 => Predicate.eq p1 p2
  | .WithLambda p1 f1, .WithLambda p2 f2 => Predicate.eq p1 p2 && Lambda.eq f1 f2
  | _, _ => false

/-- Modelled from the spec: structural equality of function terms
(the derived `PartialEq` of the missing `transducer/term.rs`). -/
def Lambda.eq : Lambda Predicate → Lambda Predicate → RustBool
  | .Id, .Id => true
  | .Constant c1, .Constant c2 => c1 == c2
  | .Mapping m1, .Mapping m2 => m1 == m2
  | .Function l1, .Function l2 => Lambda.eqList l1 l2
  | .Composition f1 g1, .Composition f2 g2 => Lambda.eq f1 f2 && Lambda.eq g1 g2
  | _, _ => false

/-- Elementwise equality of guarded-output lists. -/
def Lambda.eqList : List (Predicate × Char) → List (Predicate × Char) → RustBool
  | [], [] => true
  | (p1, c1) :: r1, (p2, c2) :: r2 =>
      Predicate.eq p1 p2 && c1 == c2 && Lambda.eqList r1 r2
  | _, _ => false

end

/-- `BoolAlg::top`. -/
def Predicate.top : Predicate := .Bool true

/-- `BoolAlg::bot`. -/
def Predicate.bot : Predicate := .Bool false

/-- `BoolAlg::char` (equality predicate). -/
def Predicate.char (a : Char) : Predicate := .Eq a

/-- `BoolAlg::boolean`. -/
def Predicate.boolean (b : RustBool) : Predicate :=
  if b then Predicate.top else Predicate.bot

/-- The first-occurrence deduplication loop at the start of
`Predicate::in_set`. -/
def dedupFirst (l : List Char) : List Char :=
  l.foldl (fun acc e => if e ∈ acc then acc else acc ++ [e]) []

/-- `Predicate::in_set`: deduplicate, sort, then collapse small sets. -/
def Predicate.in_set (elements : List Char) : Predicate :=
  match List.insertionSort (· ≤ ·) (dedupFirst elements) with
  | [] => .Bool false
  | [a] => .Eq a
  | els => .InSet els

/-- `Predicate::range`: a bounded empty interval collapses to bottom, a
bounded singleton to equality, the doubly unbounded interval to top. -/
def Predicate.range (left right : Option Char) : Predicate :=
  match left, right with
  | some l, some r =>
      if r < l then .Bool false
      else if r = l then .Eq l
      else .Range (some l) (some r)
  | none, none => .Bool true
  | l, r => .Range l r

mutual

/-- `Predicate::and` (`BoolAlg` impl), arm for arm.  The Rust `match` is
first-match; guarded or-pattern arms are split into explicit cases in
declaration order. -/
def Predicate.and : Predicate → Predicate → Predicate
  | .Bool b, p | p, .Bool b => if b then p else .Bool false
  | .Eq c, p | p, .Eq c =>
      if Predicate.denote p c then .Eq c else .Bool false
  | .Range pl pr, .Range ql qr =>
      Predicate.range
        (match pl, ql with
          | none, q => q
          | some l, none => some l
          | some l, some l2 => some (max l l2))
        (match pr, qr with
          | none, q => q
          | some r, none => some r
          | some r, some r2 => some (min r r2))
  | .InSet els, p | p, .InSet els =>
      Predicate.in_set (els.filter (fun e => Predicate.denote p e))
  | .Not p1, .Not p2 =>
      if Predicate.eq p1 (.Not p2) || Predicate.eq p2 (.Not p1) then .Bool false
      else .Not (Predicate.or p1 p2)
  | .Not p1, q => if Predicate.eq p1 q then .Bool false else .And (.Not p1) q
  | q, .Not p1 => if Predicate.eq p1 q then .Bool false else .And q (.Not p1)
  | p, q => if Predicate.eq p q then p else .And p q

/-- `Predicate::or` (`BoolAlg` impl), arm for arm, with the guarded
`Eq`-vs-anything arm unfolded into the cases the guard can fall through to. -/
def Predicate.or : Predicate → Predicate → Predicate
  | .Bool b, p | p, .Bool b => if b then .Bool true else p
  | .Eq c1, .Eq c2 => if c2 == c1 then .Eq c2 else Predicate.in_set [c1, c2]
  | .Eq c, .InSet els | .InSet els, .Eq c =>
      if c ∈ els then .InSet els else .InSet (els ++ [c])
  | .Eq c, .Not x =>
      if Predicate.denote (.Not x) c then .Not x
      else if Predicate.eq x (.Eq c) then .Bool true
      else .Or (.Eq c) (.Not x)
  | .Not x, .Eq c =>
      if Predicate.denote (.Not x) c then .Not x
      else if Predicate.eq x (.Eq c) then .Bool true
      else .Or (.Not x) (.Eq c)
  | .Eq c, p => if Predicate.denote p c then p else .Or (.Eq c) p
  | p, .Eq c => if Predicate.denote p c then p else .Or p (.Eq c)
  | .Range pl pr, .Range ql qr =>
      if (match pl, qr with | some l, some r => decide (l ≤ r) | _, _ => false)
          || (match ql, pr with | some l, some r => decide (l ≤ r) | _, _ => false) then
        Predicate.range
          (match pl, ql with | some l, some l2 => some (min l l2) | _, _ => none)
          (match pr, qr with | some r, some r2 => some (max r r2) | _, _ => none)
      else .Or (.Range pl pr) (.Range ql qr)
  | .InSet e1, .InSet e2 => Predicate.in_set (e1 ++ e2)
  | .InSet els, p | p, .InSet els =>
      let els2 := els.filter (fun e => !Predicate.denote p e)
      if els2 = [] then p else .Or (.InSet els2) p
  | .Not p1, .Not p2 =>
      if Predicate.eq p1 (.Not p2) || Predicate.eq p2 (.Not p1) then .Bool true
      else .Not (Predicate.and p1 p2)
  | .Not p1, q => if Predicate.eq p1 q then .Bool true else .Or (.Not p1) q
  | q, .Not p1 => if Predicate.eq p1 q then .Bool true else .Or q (.Not p1)
  | p, q => if Predicate.eq p q then p else .Or p q

end

/-- `Predicate::not`: strip double negation, flip booleans, else wrap. -/
def Predicate.not : Predicate → Predicate
  | .Not p => p
  | .Bool b => .Bool (!b)
  | p => .Not p

/-- Modelled from the spec: `compose(f, g)` of section 4.2 with its eager
reductions (`transducer/term.rs` is missing). -/
def Lambda.compose (f g : Lambda Predicate) : Lambda Predicate :=
  match f, g with
  | .Id, g => g
  | f, .Id => f
  | .Constant c, _ => .Constant c
  | f, g => .Composition f g

/-- `Predicate::with_lambda`. -/
def Predicate.with_lambda (p : Predicate) (f : Lambda Predicate) : Predicate :=
  match f with
  | .Id => p
  | .Constant c => Predicate.boolean (Predicate.denote p c)
  | f =>
    match p with
    | .Bool b => Predicate.boolean b
    | .WithLambda p2 f2 => .WithLambda p2 (Lambda.compose f f2)
    | p => .WithLambda p f

/-- `Predicate::satisfiable`: `false` exactly on the literal `Bool(false)`. -/
def Predicate.satisfiable : Predicate → RustBool
  | .Bool false => false
  | _ => true

/-- The `NoElement` error of witness extraction. -/
inductive NoElement where
  | noElement : NoElement

/-- The sat-set abstraction of `get_one` (`struct SatisfiableSet`);
`included` and `excluded` model `BTreeSet` as sorted duplicate-free lists. -/
structure SatisfiableSet where
  included : List Char
  excluded : List Char
  satisfiable : Bool

/-- `SatisfiableSet::maximum` (`u8::MAX`). -/
def SatisfiableSet.maximum : Nat := 255

/-- Ordered insertion, the building block of the `BTreeSet` model. -/
def slInsert (a : Char) : List Char → List Char
  | [] => [a]
  | b :: l =>
      if a < b then a :: b :: l
      else if a = b then b :: l
      else b :: slInsert a l

/-- `BTreeSet::from_iter`. -/
def slOfList (l : List Char) : List Char := l.foldl (fun s a => slInsert a s) []

/-- `BTreeSet::union` (collected). -/
def slUnion (s t : List Char) : List Char := t.foldl (fun acc a => slInsert a acc) s

/-- `BTreeSet::intersection` (collected). -/
def slInter (s t : List Char) : List Char := s.filter (fun a => a ∈ t)

/-- `BTreeSet::difference` (collected). -/
def slDiff (s t : List Char) : List Char := s.filter (fun a => a ∉ t)

/-- `From<Predicate<D>> for SatisfiableSet<D>` at `D = char`.  The `Or`
arm recurses on `not(and(not p, not q))`, which is not structurally
smaller, so the translation takes fuel; `none` models divergence.  The
`WithLambda` arm is `unimplemented!()` (a panic), also `none`.
`char::default()` is `'\u{0}'`, and `d.into() as u8` truncates the code
point to its low byte. -/
def SatisfiableSet.fromPredicate : Nat → Predicate → Option SatisfiableSet
  | 0, _ => none
  | fuel + 1, p =>
    match p with
    | .Bool b =>
        if b then some ⟨[Char.ofNat 0], [], true⟩ else some ⟨[], [], false⟩
    | .Eq e => some ⟨[e], [], true⟩
    | .Range l r =>
        let lo := (l.map (fun d => d.toNat % 256)).getD 0
        let hi := (r.map (fun d => d.toNat % 256)).getD SatisfiableSet.maximum
        some ⟨slOfList ((List.range' lo (hi - lo)).map (fun i => Char.ofNat i)), [], true⟩
    | .InSet els =>
        if els.length = 0 then some ⟨[], [], false⟩
        else some ⟨slOfList els, [], true⟩
    | .And p1 p2 =>
        match SatisfiableSet.fromPredicate fuel p1, SatisfiableSet.fromPredicate fuel p2 with
        | some s1, some s2 =>
            some ⟨slInter s1.included s2.included,
                  slUnion s1.excluded s2.excluded,
                  s1.satisfiable && s2.satisfiable⟩
        | _, _ => none
    | .Or p1 p2 =>
        SatisfiableSet.fromPredicate fuel
          (Predicate.not (Predicate.and (Predicate.not p1) (Predicate.not p2)))
    | .Not p =>
        match SatisfiableSet.fromPredicate fuel p with
        | some s =>
            if s.satisfiable then some ⟨[], slDiff s.included s.excluded, true⟩
            else some s
        | none => none
    | .WithLambda _ _ => none

/-- `Predicate::get_one`: an empty included set triggers a scan of the
byte range `'a' .. u8::MAX` for a character outside the excluded set. -/
def Predicate.get_one (fuel : Nat) (p : Predicate) : Option (Except NoElement Char) :=
  (SatisfiableSet.fromPredicate fuel p).map (fun condition =>
    if !condition.satisfiable then .error .noElement
    else if condition.included.isEmpty then
      match (List.range' 97 (SatisfiableSet.maximum - 97)).find?
          (fun i => !(condition.excluded.contains (Char.ofNat i))) with
      | some i => .ok (Char.ofNat i)
      | none => .error .noElement
    else
      match condition.included.find? (fun d => !(condition.excluded.contains d)) with
      | some d => .ok d
      | none => .error .noElement)

/-- The regex language of `regular/regex.rs` (`enum Regex<T>`) at the
`char` domain. -/
inductive Regex where
  | Empty : Regex
  | Epsilon : Regex
  | All : Regex
  | Element : Char → Regex
  | Range : Option Char → Option Char → Regex
  | Concat : List Regex → Regex
  | Or : List Regex → Regex
  | Inter : List Regex → Regex
  | Star : Regex → Regex
  | Plus : Regex → Regex
  | Not : Regex → Regex

mutual

/-- The derived `PartialEq` of `Regex`: structural equality. -/
def Regex.beq : Regex → Regex → Bool
  | .Empty, .Empty => true
  | .Epsilon, .Epsilon => true
  | .All, .All => true
  | .Element a, .Element b => a == b
  | .Range l1 r1, .Range l2 r2 => l1 == l2 && r1 == r2
  | .Concat v1, .Concat v2 => Regex.beqList v1 v2
  | .Or v1, .Or v2 => Regex.beqList v1 v2
  | .Inter v1, .Inter v2 => Regex.beqList v1 v2
  | .Star a, .Star b => Regex.beq a b
  | .Plus a, .Plus b => Regex.beq a b
  | .Not a, .Not b => Regex.beq a b
  | _, _ => false

/-- Elementwise equality of regex lists (`PartialEq` of `Vec`). -/
def Regex.beqList : List Regex → List Regex → Bool
  | [], [] => true
  | a :: as1, b :: bs => Regex.beq a b && Regex.beqList as1 bs
  | _, _ => false

end

instance : BEq Regex := ⟨Regex.beq⟩

/-- Discriminant position of each variant, as laid down by the derived
`Ord` of `Regex` (declaration order). -/
def Regex.ctorIdx : Regex → Nat
  | .Empty => 0
  | .Epsilon => 1
  | .All => 2
  | .Element _ => 3
  | .Range _ _ => 4
  | .Concat _ => 5
  | .Or _ => 6
  | .Inter _ => 7
  | .Star _ => 8
  | .Plus _ => 9
  | .Not _ => 10

/-- Character comparison by code point (Rust `char: Ord`). -/
def charCompare (a b : Char) : Ordering :=
  if a < b then .lt else if a = b then .eq else .gt

/-- Derived `Ord` on `Option<char>`: `None` sorts below `Some`. -/
def optCharCompare : Option Char → Option Char → Ordering
  | none, none => .eq
  | none, some _ => .lt
  | some _, none => .gt
  | some a, some b => charCompare a b

mutual

/-- The derived `Ord` of `Regex`: discriminant order first, then the
fields lexicographically (`Vec` compares lexicographically). -/
def Regex.cmp : Regex → Regex → Ordering
  | .Element a, .Element b => charCompare a b
  | .Range l1 r1, .Range l2 r2 => (optCharCompare l1 l2).then (optCharCompare r1 r2)
  | .Concat v1, .Concat v2 => Regex.cmpList v1 v2
  | .Or v1, .Or v2 => Regex.cmpList v1 v2
  | .Inter v1, .Inter v2 => Regex.cmpList v1 v2
  | .Star a, .Star b => Regex.cmp a b
  | .Plus a, .Plus b => Regex.cmp a b
  | .Not a, .Not b => Regex.cmp a b
  | a, b => compare a.ctorIdx b.ctorIdx

/-- Lexicographic list comparison (derived `Ord` of `Vec`). -/
def Regex.cmpList : List Regex → List Regex → Ordering
  | [], [] => .eq
  | [], _ :: _ => .lt
  | _ :: _, [] => .gt
  | a :: as1, b :: bs => (Regex.cmp a b).then (Regex.cmpList as1 bs)

end

/-- Non-strict order induced by `Regex.cmp`; `Vec::sort` sorts with
respect to it. -/
def Regex.le (a b : Regex) : Prop := Regex.cmp a b ≠ Ordering.gt

instance : DecidableRel Regex.le := fun a b =>
  inferInstanceAs (Decidable (Regex.cmp a b ≠ Ordering.gt))

/-- `Vec::sort`, modelled as a stable insertion sort for `Regex.le`. -/
def Regex.sortList (v : List Regex) : List Regex := List.insertionSort Regex.le v

/-- Push an element unless it is already present (the dedup loops of
`Regex::or` / `Regex::inter`). -/
def pushIfAbsent (v : List Regex) (r : Regex) : List Regex :=
  if v.contains r then v else v ++ [r]

/-- `Regex::empty`. -/
def Regex.empty : Regex := .Empty

/-- `Regex::epsilon`. -/
def Regex.epsilon : Regex := .Epsilon

/-- `Regex::all`. -/
def Regex.all : Regex := .All

/-- `Regex::element`. -/
def Regex.element (c : Char) : Regex := .Element c

/-- `Regex::range` (regex level): both bounds missing give `Empty`, a
singleton range collapses to `Element`. -/
def Regex.range (start stop : Option Char) : Regex :=
  match start, stop with
  | none, none => .Empty
  | some l, some r => if l = r then .Element l else .Range (some l) (some r)
  | l, r => .Range l r

/-- `Regex::concat`: `Empty` annihilates, `Epsilon` is the unit, nested
`Concat` flattens preserving operand order. -/
def Regex.concat : Regex → Regex → Regex
  | .Empty, _ | _, .Empty => .Empty
  | .Epsilon, r | r, .Epsilon => r
  | .Concat v1, .Concat v2 => .Concat (v1 ++ v2)
  | r, .Concat v => .Concat (r :: v)
  | .Concat v, r => .Concat (v ++ [r])
  | l, r => .Concat [l, r]

/-- `Regex::seq`. -/
def Regex.seq (s : List Char) : Regex :=
  match s.map Regex.Element with
  | [] => .Epsilon
  | x :: xs => xs.foldl Regex.concat x

/-- `Regex::or`: `Empty` is the unit, `Epsilon | Star r = Star r`,
merges into an existing `Or` deduplicate and re-sort, the binary base
case keeps operand order. -/
def Regex.or : Regex → Regex → Regex
  | .Empty, r | r, .Empty => r
  | .Epsilon, .Star r | .Star r, .Epsilon => .Star r
  | .Or v1, .Or v2 => .Or (Regex.sortList (v2.foldl pushIfAbsent v1))
  | .Or v, r | r, .Or v =>
      if v.contains r then .Or v else .Or (Regex.sortList (v ++ [r]))
  | l, r => if l == r then l else .Or [l, r]

/-- `Regex::inter`: `Epsilon ∩ Star _ = Epsilon`, `Empty`/`Epsilon`
otherwise annihilate, merges into an existing `Inter` deduplicate and
re-sort, the binary base case keeps operand order. -/
def Regex.inter : Regex → Regex → Regex
  | .Epsilon, .Star _ | .Star _, .Epsilon | .Epsilon, .Epsilon => .Epsilon
  | .Empty, _ | _, .Empty | .Epsilon, _ | _, .Epsilon => .Empty
  | .Inter v1, .Inter v2 => .Inter (Regex.sortList (v2.foldl pushIfAbsent v1))
  | .Inter v, r | r, .Inter v =>
      if v.contains r then .Inter v else .Inter (Regex.sortList (v ++ [r]))
  | l, r => if l == r then l else .Inter [l, r]

/-- `Regex::star`: note that the `Star` arm returns the unboxed inner
regex, exactly as the source does. -/
def Regex.star : Regex → Regex
  | .Empty => .Epsilon
  | .Epsilon => .Epsilon
  | .Star r => r
  | r => .Star r

/-- `Regex::plus`. -/
def Regex.plus (r : Regex) : Regex := .Plus r

/-- `Regex::not`: `Empty` becomes `all().star()`, double negation is
stripped, everything else is wrapped. -/
def Regex.not : Regex → Regex
  | .Empty => Regex.star Regex.all
  | .Not r => r
  | r => .Not r

/-- The `Domain for char` instance: `From<char>` is the identity. -/
def charOfChar (a : Char) : Char := a

/-- The `Domain for char` instance: `Into<char>` is the identity. -/
def charIntoChar (a : Char) : Char := a

/-- `char::separator()`. -/
def charSeparator : Char := '#'

/-- `enum CharWrap` of `util.rs`. -/
inductive CharWrap where
  | Char : Char → CharWrap
  | Separator : CharWrap
deriving DecidableEq

/-- Alias for the built-in characters, usable where the constructor name
`CharWrap.Char` shadows them (mirrors Rust's `char`). -/
abbrev RustChar := Char

/-- `From<char> for CharWrap`: the reserved glyph maps to `Separator`. -/
def CharWrap.ofChar (a : RustChar) : CharWrap :=
  if a = charSeparator then .Separator else .Char a

/-- `Into<char> for CharWrap`. -/
def CharWrap.intoChar : CharWrap → RustChar
  | .Char a => a
  | .Separator => charSeparator

/-- The generic state machine of `state.rs` at the SFA specialization
`Target = S`, `FinalState = S` (the shape every claim about runs and
final states is phrased in).  `HashSet` and `HashMap` become lists; the
guard type `P` stays abstract. -/
structure SM (S P : Type) where
  states : List S
  initial_state : S
  final_set : List S
  transition : List ((S × P) × List S)

/-- One inner scan of a `minimize` DFS loop: every candidate that is in
neither `reachables` nor the current stack is pushed on top (the order
of the conjuncts in the Rust condition does not affect the result). -/
def pushNew {S : Type} [DecidableEq S] (cands : List S) (reach : List S)
    (stack : List S) : List S :=
  cands.foldl (fun st x => if x ∈ reach ∨ x ∈ st then st else x :: st) stack

/-- The `while let Some(state) = stack.pop()` loops of `minimize`: pop a
state, record it, push its unseen successors.  The loop terminates
because every pushed state is new; the fuel passed by `minimize` is
large enough, which `dfs_complete` below exploits. -/
def dfs {S : Type} [DecidableEq S] (succ : S → List S) :
    Nat → List S → List S → List S
  | 0, _, reach => reach
  | _ + 1, [], reach => reach
  | fuel + 1, s :: stack, reach =>
      dfs succ fuel (pushNew (succ s) (reach ++ [s]) stack) (reach ++ [s])

/-- Successors explored by the forward pass: targets of satisfiable
transitions leaving `q`, in table order. -/
def fwdSucc {S P : Type} [DecidableEq S] (sat : P → Bool)
    (tr : List ((S × P) × List S)) (q : S) : List S :=
  tr.foldl (fun acc e => acc ++ if e.1.1 = q ∧ sat e.1.2 = true then e.2 else []) []

/-- Predecessors explored by the backward pass: sources of satisfiable
transitions that target `q`. -/
def bwdSucc {S P : Type} [DecidableEq S] (sat : P → Bool)
    (tr : List ((S × P) × List S)) (q : S) : List S :=
  tr.foldl (fun acc e => acc ++ if sat e.1.2 = true ∧ q ∈ e.2 then [e.1.1] else []) []

/-- All transition targets; bounds the states the forward pass can push. -/
def allTargets {S P : Type} (tr : List ((S × P) × List S)) : List S :=
  tr.foldl (fun acc e => acc ++ e.2) []

/-- The transition-rewriting step of `minimize`: keep an entry when its
source survived, restrict its target list to surviving states, and drop
it when no target is left. -/
def filterTr {S P : Type} [DecidableEq S] (sts : List S)
    (tr : List ((S × P) × List S)) : List ((S × P) × List S) :=
  tr.filterMap (fun e =>
    if e.1.1 ∈ sts then
      if e.2.filter (fun t => t ∈ sts) = [] then none
      else some (e.1, e.2.filter (fun t => t ∈ sts))
    else none)

/-- Pass 1 of `minimize`: the states forward-reachable from the initial
state along satisfiable transitions (`stack = vec![initial]`).  The fuel
bounds the number of loop iterations; `dfs_complete` below shows it
suffices. -/
def minimizeReach1 {S P : Type} [DecidableEq S] (sat : P → Bool) (M : SM S P) : List S :=
  dfs (fwdSucc sat M.transition)
    (2 * (allTargets M.transition).length + 2) [M.initial_state] []

/-- The transition table rewritten after pass 1. -/
def minimizeTr1 {S P : Type} [DecidableEq S] (sat : P → Bool) (M : SM S P) :
    List ((S × P) × List S) :=
  filterTr (minimizeReach1 sat M) M.transition

/-- The final set filtered after pass 1; its members seed the backward
stack of pass 2 (popped most-recently-pushed first, hence `reverse`). -/
def minimizeFinals1 {S P : Type} [DecidableEq S] (sat : P → Bool) (M : SM S P) : List S :=
  M.final_set.filter (fun q => q ∈ minimizeReach1 sat M)

/-- Pass 2 of `minimize`: the states backward-reachable from the
surviving final states along satisfiable rewritten transitions. -/
def minimizeReach2 {S P : Type} [DecidableEq S] (sat : P → Bool) (M : SM S P) : List S :=
  dfs (bwdSucc sat (minimizeTr1 sat M))
    (2 * (minimizeTr1 sat M).length + (minimizeFinals1 sat M).length + 1)
    (minimizeFinals1 sat M).reverse []

/-- The state set after pass 2, with the initial state re-inserted
unconditionally (`reachables.push(self.initial_state().clone())`). -/
def minimizeStates2 {S P : Type} [DecidableEq S] (sat : P → Bool) (M : SM S P) : List S :=
  minimizeReach2 sat M ++ [M.initial_state]

/-- `StateMachine::minimize`: forward reachability from the initial
state, then backward reachability from the surviving final states, with
the initial state re-inserted unconditionally; transitions and final set
are rewritten after each pass.  Satisfiability of a guard is consulted
only while exploring, never to filter the rewritten table. -/
def minimize {S P : Type} [DecidableEq S] (sat : P → Bool) (M : SM S P) : SM S P :=
  ⟨minimizeStates2 sat M, M.initial_state,
    (minimizeFinals1 sat M).filter (fun q => q ∈ minimizeStates2 sat M),
    filterTr (minimizeStates2 sat M) (minimizeTr1 sat M)⟩

/-- One input symbol of `generalized_run` at the SFA-membership
instantiation (`step_func` returns the transition target): every live
state is advanced along every transition whose guard denotes the
symbol. -/
def runStep {S P D : Type} [DecidableEq S] (den : P → D → Bool)
    (tr : List ((S × P) × List S)) (poss : List S) (c : D) : List S :=
  poss.foldl (fun acc q =>
    acc ++ tr.foldl (fun acc2 e =>
      acc2 ++ if e.1.1 = q ∧ den e.1.2 c = true then e.2 else []) []) []

/-- `StateMachine::generalized_run` specialized to SFA membership:
start from the given possibilities and fold `runStep` over the input. -/
def generalized_run {S P D : Type} [DecidableEq S] (den : P → D → Bool)
    (M : SM S P) (input : List D) (initPoss : List S) : List S :=
  input.foldl (runStep den M.transition) initPoss

/-- SFA membership (spec section 4.5): a word is accepted when some run
from the initial state ends in a final state. -/
def SM.accepts {S P D : Type} [DecidableEq S] (den : P → D → Bool)
    (M : SM S P) (input : List D) : Bool :=
  (generalized_run den M input [M.initial_state]).any (fun q => decide (q ∈ M.final_set))

/-- Concrete machine exhibiting an unsatisfiable guard that survives
`minimize`: both transitions connect reachable, final-reaching states. -/
def exampleC3 : SM Nat Predicate :=
  ⟨[0, 1], 0, [1],
    [((0, Predicate.Bool true), [1]), ((0, Predicate.Bool false), [1])]⟩

/-- Concrete machine used to witness language preservation. -/
def exampleC8 : SM Nat Predicate :=
  ⟨[0, 1, 2], 0, [1],
    [((0, Predicate.char 'a'), [1]), ((1, Predicate.Bool false), [2])]⟩

/-- Paths through a transition table: `PathFrom tr den w q q'` holds when
the word `w` can drive the machine from `q` to `q'` along entries whose
guards denote the successive symbols. -/
def PathFrom {S P D : Type} (tr : List ((S × P) × List S)) (den : P → D → Bool) :
    List D → S → S → Prop
  | [], q, q' => q = q'
  | c :: w, q, q' =>
      ∃ e, e ∈ tr ∧ e.1.1 = q ∧ den e.1.2 c = true ∧ ∃ t, t ∈ e.2 ∧ PathFrom tr den w t q'

/-!  Theorems.  Helper lemmas come first, the claim theorems follow. -/

/-- A denotation can only hold for a predicate whose `satisfiable` check
passes: `satisfiable` is `false` only on the literal `Bool(false)`, which
denotes nothing. -/
theorem denote_imp_satisfiable (p : Predicate) (c : Char)
    (h : Predicate.denote p c = true) : Predicate.satisfiable p = true := by
  cases p with
  | Bool b => cases b with
    | false => exact absurd h (by simp [Predicate.denote])
    | true => rfl
  | Eq _ => rfl
  | Range _ _ => rfl
  | InSet _ => rfl
  | And _ _ => rfl
  | Or _ _ => rfl
  | Not _ => rfl
  | WithLambda _ _ => rfl

/-- Claim C1 (code bug).  `and` of the abutting ranges `['a','c')` and
`['c','e')` rewrites the empty intersection `['c','c')` to `Eq('c')`,
which accepts `'c'` although the left conjunct rejects it; `or` of the
disjoint ranges `['a','b')` and `['c','e')` passes the too-weak overlap
guard and merges them into `['a','e')`, which accepts `'b'` although
neither disjunct does.  Both evaluations contradict
`denote(and(p,q),x) = denote(p,x) ∧ denote(q,x)` and its `or` dual. -/
theorem and_or_denote_bug :
    (Predicate.and (Predicate.range (some 'a') (some 'c'))
        (Predicate.range (some 'c') (some 'e'))).denote 'c' = true
    ∧ ((Predicate.range (some 'a') (some 'c')).denote 'c'
        && (Predicate.range (some 'c') (some 'e')).denote 'c') = false
    ∧ (Predicate.or (Predicate.range (some 'a') (some 'b'))
        (Predicate.range (some 'c') (some 'e'))).denote 'b' = true
    ∧ ((Predicate.range (some 'a') (some 'b')).denote 'b'
        || (Predicate.range (some 'c') (some 'e')).denote 'b') = false :=
  ⟨by decide, by decide, by decide, by decide⟩

/-- Claim C2 (code bug).  The `Star` arm of `Regex::star` returns the
unboxed inner regex, so `star(Star(r))` yields `r` — not `Star(r)` as
the specification states; the `Empty` and `Epsilon` reductions do hold. -/
theorem star_star_bug :
    Regex.star (Regex.Star (Regex.Element 'a')) = Regex.Element 'a'
    ∧ Regex.star Regex.Empty = Regex.Epsilon
    ∧ Regex.star Regex.Epsilon = Regex.Epsilon :=
  ⟨rfl, rfl, rfl⟩

/-- Claim C6, counterexample.  At `r = Empty` the double application of
the smart constructor is not the identity: `not(Empty) = Star(All)` and
`not(Star(All))` wraps, giving `Not(Star(All)) ≠ Empty`. -/
theorem not_not_empty_counterexample :
    Regex.not (Regex.not Regex.Empty) = Regex.Not (Regex.Star Regex.All)
    ∧ Regex.Not (Regex.Star Regex.All) ≠ Regex.Empty :=
  ⟨rfl, fun h => Regex.noConfusion h⟩

/-- Claim C6, amended.  `not(not(r)) = r` for every `r` except the shapes
that trigger a special reduction on the way: `Empty` itself, `Not(Empty)`
and `Not(Not(s))`; and `not(Empty) = Star(All)`. -/
theorem not_not_eq (r : Regex) (h1 : r ≠ Regex.Empty)
    (h2 : r ≠ Regex.Not Regex.Empty) (h3 : ∀ s, r ≠ Regex.Not (Regex.Not s)) :
    Regex.not (Regex.not r) = r ∧ Regex.not Regex.Empty = Regex.Star Regex.All := by
  constructor
  · cases r with
    | Empty => exact absurd rfl h1
    | Not x =>
        cases x <;> first
          | exact absurd rfl h2
          | exact absurd rfl (h3 _)
          | rfl
    | Epsilon => rfl
    | All => rfl
    | Element c => rfl
    | Range l r => rfl
    | Concat v => rfl
    | Or v => rfl
    | Inter v => rfl
    | Star s => rfl
    | Plus s => rfl
  · rfl

/-- Witness for `not_not_eq` at `r = Element 'a'`. -/
theorem not_not_eq_witness :
    Regex.not (Regex.not (Regex.Element 'a')) = Regex.Element 'a'
    ∧ Regex.not Regex.Empty = Regex.Star Regex.All :=
  not_not_eq (Regex.Element 'a') (fun h => Regex.noConfusion h)
    (fun h => Regex.noConfusion h) (fun _ h => Regex.noConfusion h)

/-- Claim C9, counterexample.  `CharWrap::Char('#')` is a value of the
domain different from the separator, yet its round trip through `char`
lands on `Separator`: the claim fails for it. -/
theorem charwrap_hash_counterexample :
    CharWrap.Char '#' ≠ CharWrap.Separator
    ∧ CharWrap.ofChar (CharWrap.intoChar (CharWrap.Char '#')) = CharWrap.Separator :=
  ⟨fun h => CharWrap.noConfusion h, by decide⟩

/-- Claim C9, amended.  For the plain `char` domain the round trip is the
identity on every value; for `CharWrap` it holds for every `Char a` whose
payload is not the reserved glyph `'#'` — equivalently, for every
non-separator value in the image of `of_char`.  The expressible but never
produced value `Char('#')` is the lone exception. -/
theorem of_char_to_char_roundtrip :
    (∀ x : Char, charOfChar (charIntoChar x) = x)
    ∧ (∀ a : RustChar, a ≠ charSeparator →
        CharWrap.ofChar (CharWrap.intoChar (CharWrap.Char a)) = CharWrap.Char a) :=
  ⟨fun _ => rfl, fun a h => by simp [CharWrap.ofChar, CharWrap.intoChar, h]⟩

/-- Witness for `of_char_to_char_roundtrip` at `'x'`. -/
theorem of_char_to_char_roundtrip_witness :
    CharWrap.ofChar (CharWrap.intoChar (CharWrap.Char 'x')) = CharWrap.Char 'x' :=
  of_char_to_char_roundtrip.2 'x' (by decide)

/-- Claim C10.  The predicate-level `range(None, None)` is `Bool(true)`
and denotes every character, while the regex-level `range(None, None)`
is `Empty` by the engine's convention. -/
theorem range_none_none_top :
    Predicate.range none none = Predicate.Bool true
    ∧ (∀ x : Char, (Predicate.range none none).denote x = true)
    ∧ Regex.range none none = Regex.Empty :=
  ⟨rfl, fun _ => rfl, rfl⟩

/-- The push-if-absent accumulation of `in_set` keeps the accumulator
duplicate-free. -/
theorem foldl_dedup_nodup :
    ∀ (l : List Char) (acc : List Char), acc.Nodup →
      (l.foldl (fun acc e => if e ∈ acc then acc else acc ++ [e]) acc).Nodup := by
  intro l
  induction l with
  | nil => intro acc h; exact h
  | cons e l ih =>
      intro acc h
      simp only [List.foldl_cons]
      by_cases he : e ∈ acc
      · rw [if_pos he]; exact ih acc h
      · rw [if_neg he]
        exact ih (acc ++ [e])
          (h.append (List.nodup_singleton e)
            (fun x hx hx' => he (by rw [List.mem_singleton] at hx'; rwa [hx'] at hx)))

/-- `dedupFirst` produces a duplicate-free list. -/
theorem dedupFirst_nodup (l : List Char) : (dedupFirst l).Nodup :=
  foldl_dedup_nodup l [] List.nodup_nil

/-- Claim C4, counterexample.  Joining `Eq('a')` with the canonical
`InSet(['b','c'])` appends the character at the end, yielding an `InSet`
node whose list is not sorted — although both inputs were built by the
smart constructors (`char`, `in_set`). -/
theorem or_inset_unsorted_counterexample :
    Predicate.or (Predicate.char 'a') (Predicate.in_set ['b', 'c'])
      = Predicate.InSet ['b', 'c', 'a']
    ∧ ¬ List.Pairwise (· < ·) ['b', 'c', 'a'] :=
  ⟨rfl, by decide⟩

/-- Claim C4, amended.  The `in_set` constructor itself canonicalizes:
an empty collection yields `Bool(false)`, a singleton yields `Eq`, and
any `InSet` node it builds carries a sorted (strictly increasing, hence
duplicate-free) list of length at least two.  The universal statement
over all constructor compositions fails, because `or` (directly, or
through the De Morgan arm of `and`) can emit unsorted or short `InSet`
nodes. -/
theorem in_set_canonical :
    (∀ l : List Char, l = [] → Predicate.in_set l = Predicate.Bool false)
    ∧ (∀ a : Char, Predicate.in_set [a] = Predicate.Eq a)
    ∧ (∀ (l els : List Char), Predicate.in_set l = Predicate.InSet els →
        List.Pairwise (· < ·) els ∧ 2 ≤ els.length) := by
  refine ⟨fun l h => by subst h; rfl, fun a => rfl, fun l els h => ?_⟩
  have hnd : (List.insertionSort (· ≤ ·) (dedupFirst l)).Nodup :=
    ((List.perm_insertionSort (· ≤ ·) (dedupFirst l)).nodup_iff).mpr (dedupFirst_nodup l)
  have hsort : List.Sorted (· ≤ ·) (List.insertionSort (· ≤ ·) (dedupFirst l)) :=
    List.sorted_insertionSort (· ≤ ·) (dedupFirst l)
  have hlt : List.Pairwise (· < ·) (List.insertionSort (· ≤ ·) (dedupFirst l)) :=
    hsort.lt_of_le hnd
  unfold Predicate.in_set at h
  cases hs : List.insertionSort (· ≤ ·) (dedupFirst l) with
  | nil => rw [hs] at h; exact absurd h (by simp)
  | cons a tail =>
      cases tail with
      | nil => rw [hs] at h; exact absurd h (by simp)
      | cons b t =>
          rw [hs] at h hlt
          injection h with hels
          subst hels
          exact ⟨hlt, by simp only [List.length_cons]; omega⟩

/-- Witness for `in_set_canonical`: the empty, singleton and two-element
cases, the last through an `InSet` node actually built by `in_set`. -/
theorem in_set_canonical_witness :
    Predicate.in_set ([] : List Char) = Predicate.Bool false
    ∧ Predicate.in_set ['a'] = Predicate.Eq 'a'
    ∧ (List.Pairwise (· < ·) ['a', 'b'] ∧ 2 ≤ (['a', 'b'] : List Char).length) :=
  ⟨in_set_canonical.1 [] rfl, in_set_canonical.2.1 'a',
    in_set_canonical.2.2 ['b', 'a'] ['a', 'b'] rfl⟩

/-- Claim C7 (code bug).  The predicate `[b,e) ∧ ¬[b,c)` — built
entirely by smart constructors — is satisfied exactly by `'c'` and `'d'`,
but `get_one` answers `Ok('a')`: the intersection of the included sets
loses the positive range (a `Not` node carries an empty included set), and
the fallback scan over `'a'..0xFF` consults only the excluded set.  The
fuel `10` is ample; the claimed implication `Ok(v) ⇒ denote(p,v)` fails. -/
theorem get_one_unsound :
    Predicate.get_one 10 (Predicate.and (Predicate.range (some 'b') (some 'e'))
        (Predicate.not (Predicate.range (some 'b') (some 'c'))))
      = some (Except.ok 'a')
    ∧ (Predicate.and (Predicate.range (some 'b') (some 'e'))
        (Predicate.not (Predicate.range (some 'b') (some 'c')))).denote 'a' = false :=
  ⟨rfl, rfl⟩

mutual

/-- `Regex.beq` is sound for structural equality. -/
theorem Regex.eq_of_beq : (a b : Regex) → Regex.beq a b = true → a = b
  | .Empty, b, h => by cases b <;> simp_all [Regex.beq]
  | .Epsilon, b, h => by cases b <;> simp_all [Regex.beq]
  | .All, b, h => by cases b <;> simp_all [Regex.beq]
  | .Element x, b, h => by cases b <;> simp_all [Regex.beq]
  | .Range l1 r1, b, h => by cases b <;> simp_all [Regex.beq]
  | .Concat v1, b, h => by
      cases b <;> first
        | exact congrArg Regex.Concat
            (Regex.eqList_of_beqList v1 _ (by simpa [Regex.beq] using h))
        | simp_all [Regex.beq]
  | .Or v1, b, h => by
      cases b <;> first
        | exact congrArg Regex.Or
            (Regex.eqList_of_beqList v1 _ (by simpa [Regex.beq] using h))
        | simp_all [Regex.beq]
  | .Inter v1, b, h => by
      cases b <;> first
        | exact congrArg Regex.Inter
            (Regex.eqList_of_beqList v1 _ (by simpa [Regex.beq] using h))
        | simp_all [Regex.beq]
  | .Star x, b, h => by
      cases b <;> first
        | exact congrArg Regex.Star (Regex.eq_of_beq x _ (by simpa [Regex.beq] using h))
        | simp_all [Regex.beq]
  | .Plus x, b, h => by
      cases b <;> first
        | exact congrArg Regex.Plus (Regex.eq_of_beq x _ (by simpa [Regex.beq] using h))
        | simp_all [Regex.beq]
  | .Not x, b, h => by
      cases b <;> first
        | exact congrArg Regex.Not (Regex.eq_of_beq x _ (by simpa [Regex.beq] using h))
        | simp_all [Regex.beq]

/-- `Regex.beqList` is sound for structural equality of lists. -/
theorem Regex.eqList_of_beqList : (v w : List Regex) → Regex.beqList v w = true → v = w
  | [], [], _ => rfl
  | [], _ :: _, h => by simp [Regex.beqList] at h
  | _ :: _, [], h => by simp [Regex.beqList] at h
  | a :: as1, b :: bs, h => by
      have h2 : Regex.beq a b = true ∧ Regex.beqList as1 bs = true := by
        simpa [Regex.beqList, Bool.and_eq_true] using h
      rw [Regex.eq_of_beq a b h2.1, Regex.eqList_of_beqList as1 bs h2.2]

end

mutual

/-- `Regex.beq` is reflexive. -/
theorem Regex.beq_refl : (a : Regex) → Regex.beq a a = true
  | .Empty => rfl
  | .Epsilon => rfl
  | .All => rfl
  | .Element x => by simp [Regex.beq]
  | .Range l r => by simp [Regex.beq]
  | .Concat v => by simpa [Regex.beq] using Regex.beqList_refl v
  | .Or v => by simpa [Regex.beq] using Regex.beqList_refl v
  | .Inter v => by simpa [Regex.beq] using Regex.beqList_refl v
  | .Star x => by simpa [Regex.beq] using Regex.beq_refl x
  | .Plus x => by simpa [Regex.beq] using Regex.beq_refl x
  | .Not x => by simpa [Regex.beq] using Regex.beq_refl x

/-- `Regex.beqList` is reflexive. -/
theorem Regex.beqList_refl : (v : List Regex) → Regex.beqList v v = true
  | [] => rfl
  | a :: as1 => by
      simp [Regex.beqList, Bool.and_eq_true]
      exact ⟨Regex.beq_refl a, Regex.beqList_refl as1⟩

end

/-- `Regex.beq` decides structural equality. -/
theorem Regex.beq_iff (a b : Regex) : Regex.beq a b = true ↔ a = b :=
  ⟨Regex.eq_of_beq a b, fun h => h ▸ Regex.beq_refl a⟩

/-- `Vec::contains` through `Regex.beq` agrees with list membership. -/
theorem Regex.contains_iff (v : List Regex) (r : Regex) :
    v.contains r = true ↔ r ∈ v := by
  induction v with
  | nil => simp [List.contains]
  | cons a as1 ih =>
      simp only [List.contains_cons, Bool.or_eq_true, List.mem_cons]
      constructor
      · rintro (h | h)
        · exact .inl (Regex.eq_of_beq r a h)
        · exact .inr (ih.mp h)
      · rintro (h | h)
        · subst h; exact .inl (Regex.beq_refl r)
        · exact .inr (ih.mpr h)

/-- The dedup loops of `Regex::or` / `Regex::inter` keep the accumulator
duplicate-free. -/
theorem foldl_pushIfAbsent_nodup :
    ∀ (l : List Regex) (v : List Regex), v.Nodup → (l.foldl pushIfAbsent v).Nodup := by
  intro l
  induction l with
  | nil => intro v h; exact h
  | cons r l ih =>
      intro v h
      simp only [List.foldl_cons]
      by_cases hc : v.contains r = true
      · rw [pushIfAbsent, if_pos hc]; exact ih v h
      · rw [pushIfAbsent, if_neg hc]
        refine ih (v ++ [r]) (h.append (List.nodup_singleton r) ?_)
        intro x hx hx'
        rw [List.mem_singleton] at hx'
        subst hx'
        exact hc ((Regex.contains_iff v x).mpr hx)

/-- A sorted copy of a duplicate-free list is duplicate-free. -/
theorem sortList_nodup (v : List Regex) (h : v.Nodup) : (Regex.sortList v).Nodup :=
  ((List.perm_insertionSort Regex.le v).nodup_iff).mpr h

/-- `charCompare` is antisymmetric under `Ordering.swap`. -/
theorem charCompare_swap (a b : Char) : (charCompare a b).swap = charCompare b a := by
  rcases lt_trichotomy a b with h | h | h
  · rw [charCompare, if_pos h, charCompare, if_neg (lt_asymm h), if_neg (ne_of_gt h)]
    rfl
  · subst h
    rw [charCompare, if_neg (lt_irrefl a), if_pos rfl]
    rfl
  · rw [charCompare, if_neg (lt_asymm h), if_neg (ne_of_gt h), charCompare, if_pos h]
    rfl

/-- `optCharCompare` is antisymmetric under `Ordering.swap`. -/
theorem optCharCompare_swap (a b : Option Char) :
    (optCharCompare a b).swap = optCharCompare b a := by
  cases a <;> cases b <;> first | rfl | exact charCompare_swap _ _

mutual

/-- The derived `Ord` of `Regex` is antisymmetric under `Ordering.swap`. -/
theorem Regex.cmp_swap : (a b : Regex) → (Regex.cmp a b).swap = Regex.cmp b a
  | .Empty, b => by
      cases b <;> (simp only [Regex.cmp, Regex.ctorIdx]; decide)
  | .Epsilon, b => by
      cases b <;> (simp only [Regex.cmp, Regex.ctorIdx]; decide)
  | .All, b => by
      cases b <;> (simp only [Regex.cmp, Regex.ctorIdx]; decide)
  | .Element x, b => by
      cases b <;> first
        | (simp only [Regex.cmp]; exact charCompare_swap _ _)
        | (simp only [Regex.cmp, Regex.ctorIdx]; decide)
  | .Range l1 r1, b => by
      cases b <;> first
        | (simp only [Regex.cmp]
           rw [Ordering.swap_then, optCharCompare_swap, optCharCompare_swap])
        | (simp only [Regex.cmp, Regex.ctorIdx]; decide)
  | .Concat v1, b => by
      cases b <;> first
        | (simp only [Regex.cmp]; exact Regex.cmpList_swap v1 _)
        | (simp only [Regex.cmp, Regex.ctorIdx]; decide)
  | .Or v1, b => by
      cases b <;> first
        | (simp only [Regex.cmp]; exact Regex.cmpList_swap v1 _)
        | (simp only [Regex.cmp, Regex.ctorIdx]; decide)
  | .Inter v1, b => by
      cases b <;> first
        | (simp only [Regex.cmp]; exact Regex.cmpList_swap v1 _)
        | (simp only [Regex.cmp, Regex.ctorIdx]; decide)
  | .Star x, b => by
      cases b <;> first
        | (simp only [Regex.cmp]; exact Regex.cmp_swap x _)
        | (simp only [Regex.cmp, Regex.ctorIdx]; decide)
  | .Plus x, b => by
      cases b <;> first
        | (simp only [Regex.cmp]; exact Regex.cmp_swap x _)
        | (simp only [Regex.cmp, Regex.ctorIdx]; decide)
  | .Not x, b => by
      cases b <;> first
        | (simp only [Regex.cmp]; exact Regex.cmp_swap x _)
        | (simp only [Regex.cmp, Regex.ctorIdx]; decide)

/-- Lexicographic list comparison is antisymmetric under `Ordering.swap`. -/
theorem Regex.cmpList_swap : (v w : List Regex) →
    (Regex.cmpList v w).swap = Regex.cmpList w v
  | [], [] => rfl
  | [], _ :: _ => rfl
  | _ :: _, [] => rfl
  | a :: as1, b :: bs => by
      simp only [Regex.cmpList]
      rw [Ordering.swap_then, Regex.cmp_swap a b, Regex.cmpList_swap as1 bs]

end

/-- The sort order of `Regex` is total. -/
theorem Regex.le_total : ∀ a b : Regex, Regex.le a b ∨ Regex.le b a := by
  intro a b
  by_cases h : Regex.cmp a b = Ordering.gt
  · right
    rw [Regex.le, ← Regex.cmp_swap a b, h]
    decide
  · exact .inl h

/-- The head of an ordered insertion is the new element or the old head. -/
theorem orderedInsert_head {α : Type} (r : α → α → Prop) [DecidableRel r] :
    ∀ (l : List α) (a : α), (List.orderedInsert r a l).head? = some a
      ∨ (List.orderedInsert r a l).head? = l.head? := by
  intro l a
  cases l with
  | nil => left; rfl
  | cons b l =>
      rw [List.orderedInsert]
      by_cases h : r a b
      · rw [if_pos h]; left; rfl
      · rw [if_neg h]; right; rfl

/-- For a total relation, ordered insertion preserves adjacent
sortedness. -/
theorem chain'_orderedInsert {α : Type} (r : α → α → Prop) [DecidableRel r]
    (htot : ∀ a b : α, r a b ∨ r b a) :
    ∀ (l : List α) (a : α), l.Chain' r → (List.orderedInsert r a l).Chain' r := by
  intro l
  induction l with
  | nil => intro a _; simp [List.orderedInsert]
  | cons b l ih =>
      intro a hch
      rw [List.orderedInsert]
      by_cases h : r a b
      · rw [if_pos h]
        exact List.chain'_cons.mpr ⟨h, hch⟩
      · rw [if_neg h]
        have hba : r b a := (htot a b).resolve_left h
        have hch2 := List.chain'_cons'.mp hch
        refine List.chain'_cons'.mpr ⟨?_, ih a hch2.2⟩
        intro y hy
        rcases orderedInsert_head r l a with hh | hh
        · rw [Option.mem_def] at hy
          rw [hy] at hh
          injection hh with hh
          subst hh
          exact hba
        · rw [Option.mem_def] at hy
          exact hch2.1 y (by rw [Option.mem_def, ← hh]; exact hy)

/-- For a total relation, insertion sort returns an adjacent-sorted
list. -/
theorem chain'_insertionSort {α : Type} (r : α → α → Prop) [DecidableRel r]
    (htot : ∀ a b : α, r a b ∨ r b a) :
    ∀ l : List α, (List.insertionSort r l).Chain' r := by
  intro l
  induction l with
  | nil => exact List.chain'_nil
  | cons a l ih =>
      rw [List.insertionSort]
      exact chain'_orderedInsert r htot _ a ih

/-- `Vec::sort` returns an adjacent-sorted list. -/
theorem sortList_chain' (v : List Regex) : (Regex.sortList v).Chain' Regex.le :=
  chain'_insertionSort Regex.le Regex.le_total v

/-- Claim C5, counterexample.  The binary base case of `Regex::or`
preserves operand order and never sorts: `or(b, a)` yields the `Or` node
`[Element('b'), Element('a')]`, out of order for the derived `Ord`
(`cmp(Element('b'), Element('a')) = Greater`). -/
theorem or_base_case_unsorted :
    Regex.or (Regex.Element 'b') (Regex.Element 'a')
      = Regex.Or [Regex.Element 'b', Regex.Element 'a']
    ∧ Regex.cmp (Regex.Element 'b') (Regex.Element 'a') = Ordering.gt :=
  ⟨rfl, by decide⟩

/-- Claim C5, amended.  Every `Or`/`Inter` node returned by `or`/`inter`
has duplicate-free children whenever the `Or`/`Inter` arguments have
duplicate-free children (so constructor-built regexes keep their
`Or`/`Inter` child lists duplicate-free); applying `or`/`inter` to an
existing `Or`/`Inter` node either leaves its child list untouched (the
element was already present, or the other operand reduces away) or
returns a freshly sorted list (adjacent pairs ordered by the derived
`Ord`); the binary base case preserves operand order and may be
unsorted.  The literal scenarios hold: `(a|b) | (a|b) = (a|b)`, adding
`c` yields three sorted children, and
`seq("ab") · seq("ab") = Concat([a,b,a,b])`. -/
theorem or_inter_children :
    (Regex.or (Regex.or (Regex.Element 'a') (Regex.Element 'b'))
        (Regex.or (Regex.Element 'a') (Regex.Element 'b'))
      = Regex.Or [Regex.Element 'a', Regex.Element 'b'])
    ∧ (Regex.or (Regex.or (Regex.Element 'a') (Regex.Element 'b')) (Regex.Element 'c')
      = Regex.Or [Regex.Element 'a', Regex.Element 'b', Regex.Element 'c'])
    ∧ (Regex.concat (Regex.seq ['a', 'b']) (Regex.seq ['a', 'b'])
      = Regex.Concat [Regex.Element 'a', Regex.Element 'b',
          Regex.Element 'a', Regex.Element 'b'])
    ∧ (∀ (l r : Regex) (u : List Regex),
        (∀ v, l = Regex.Or v → v.Nodup) → (∀ v, r = Regex.Or v → v.Nodup) →
        Regex.or l r = Regex.Or u → u.Nodup)
    ∧ (∀ (l r : Regex) (u : List Regex),
        (∀ v, l = Regex.Inter v → v.Nodup) → (∀ v, r = Regex.Inter v → v.Nodup) →
        Regex.inter l r = Regex.Inter u → u.Nodup)
    ∧ (∀ (v : List Regex) (r : Regex) (u : List Regex),
        Regex.or (Regex.Or v) r = Regex.Or u → u = v ∨ u.Chain' Regex.le)
    ∧ (∀ (v : List Regex) (r : Regex) (u : List Regex),
        Regex.inter (Regex.Inter v) r = Regex.Inter u → u = v ∨ u.Chain' Regex.le) := by
  refine ⟨rfl, rfl, rfl, ?_, ?_, ?_, ?_⟩
  · intro l r u hl hr h
    cases l
    case Or v =>
      have hv := hl v rfl
      cases r <;> simp only [Regex.or] at h
      case Empty => injection h with h2; subst h2; exact hv
      case Or v2 =>
          injection h with h2
          subst h2
          exact sortList_nodup _ (foldl_pushIfAbsent_nodup v2 v hv)
      all_goals
        split at h
        · injection h with h2; subst h2; exact hv
        · rename_i hc
          injection h with h2
          subst h2
          refine sortList_nodup _ (hv.append (List.nodup_singleton _) ?_)
          intro x hx hx2
          rw [List.mem_singleton] at hx2
          subst hx2
          exact hc ((Regex.contains_iff v _).mpr hx)
    case Empty =>
      cases r <;> simp only [Regex.or] at h <;>
        first
        | exact Regex.noConfusion h
        | (injection h with h2; subst h2; exact hr _ rfl)
    all_goals
      cases r <;> simp only [Regex.or] at h <;>
        first
        | exact Regex.noConfusion h
        | (split at h
           · first
             | exact Regex.noConfusion h
             | (injection h with h2; subst h2; exact hr _ rfl)
           · rename_i hc
             injection h with h2
             subst h2
             first
             | (refine sortList_nodup _ ((hr _ rfl).append (List.nodup_singleton _) ?_)
                intro x hx hx2
                rw [List.mem_singleton] at hx2
                subst hx2
                exact hc ((Regex.contains_iff _ _).mpr hx))
             | exact List.nodup_cons.mpr
                 ⟨fun hm => hc ((Regex.beq_iff _ _).mpr (List.mem_singleton.mp hm)),
                  List.nodup_singleton _⟩)
  · intro l r u hl hr h
    cases l
    case Inter v =>
      have hv := hl v rfl
      cases r <;> simp only [Regex.inter] at h
      case Empty => exact Regex.noConfusion h
      case Epsilon => exact Regex.noConfusion h
      case Inter v2 =>
          injection h with h2
          subst h2
          exact sortList_nodup _ (foldl_pushIfAbsent_nodup v2 v hv)
      all_goals
        split at h
        · injection h with h2; subst h2; exact hv
        · rename_i hc
          injection h with h2
          subst h2
          refine sortList_nodup _ (hv.append (List.nodup_singleton _) ?_)
          intro x hx hx2
          rw [List.mem_singleton] at hx2
          subst hx2
          exact hc ((Regex.contains_iff v _).mpr hx)
    case Empty =>
      cases r <;> simp only [Regex.inter] at h <;> exact Regex.noConfusion h
    case Epsilon =>
      cases r <;> simp only [Regex.inter] at h <;> exact Regex.noConfusion h
    all_goals
      cases r <;> simp only [Regex.inter] at h <;>
        first
        | exact Regex.noConfusion h
        | (split at h
           · first
             | exact Regex.noConfusion h
             | (injection h with h2; subst h2; exact hr _ rfl)
           · rename_i hc
             injection h with h2
             subst h2
             first
             | (refine sortList_nodup _ ((hr _ rfl).append (List.nodup_singleton _) ?_)
                intro x hx hx2
                rw [List.mem_singleton] at hx2
                subst hx2
                exact hc ((Regex.contains_iff _ _).mpr hx))
             | exact List.nodup_cons.mpr
                 ⟨fun hm => hc ((Regex.beq_iff _ _).mpr (List.mem_singleton.mp hm)),
                  List.nodup_singleton _⟩)
  · intro v r u h
    cases r <;> simp only [Regex.or] at h
    case Empty => injection h with h2; exact .inl h2.symm
    case Or v2 =>
        injection h with h2
        exact .inr (h2 ▸ sortList_chain' _)
    all_goals
      split at h
      · injection h with h2; exact .inl h2.symm
      · injection h with h2; exact .inr (h2 ▸ sortList_chain' _)
  · intro v r u h
    cases r <;> simp only [Regex.inter] at h
    case Empty => exact Regex.noConfusion h
    case Epsilon => exact Regex.noConfusion h
    case Inter v2 =>
        injection h with h2
        exact .inr (h2 ▸ sortList_chain' _)
    all_goals
      split at h
      · injection h with h2; exact .inl h2.symm
      · injection h with h2; exact .inr (h2 ▸ sortList_chain' _)

/-- Witness for `or_inter_children`: the duplicate-freeness closure and
the sorted-merge disjunction applied to a concrete merge into
`Or([Element 'a'])`. -/
theorem or_inter_children_witness :
    ([Regex.Element 'a', Regex.Element 'b'] : List Regex).Nodup
    ∧ ([Regex.Element 'a', Regex.Element 'b'] = [Regex.Element 'a']
        ∨ ([Regex.Element 'a', Regex.Element 'b'] : List Regex).Chain' Regex.le) :=
  ⟨or_inter_children.2.2.2.1 (Regex.Or [Regex.Element 'a']) (Regex.Element 'b')
      [Regex.Element 'a', Regex.Element 'b']
      (fun v hv => by injection hv with h2; subst h2; exact List.nodup_singleton _)
      (fun v hv => Regex.noConfusion hv) rfl,
    or_inter_children.2.2.2.2.2.1 [Regex.Element 'a'] (Regex.Element 'b')
      [Regex.Element 'a', Regex.Element 'b'] rfl⟩

/-- Appending folds factor through their accumulator. -/
theorem foldl_append_init {α β : Type} (f : β → List α) :
    ∀ (l : List β) (acc : List α),
      l.foldl (fun a b => a ++ f b) acc = acc ++ l.foldl (fun a b => a ++ f b) [] := by
  intro l
  induction l with
  | nil => intro acc; simp
  | cons b l ih =>
      intro acc
      simp only [List.foldl_cons]
      rw [ih (acc ++ f b), ih (List.nil ++ f b)]
      simp

/-- Membership in an appending fold. -/
theorem mem_foldl_append {α β : Type} (f : β → List α) (l : List β) (x : α) :
    x ∈ l.foldl (fun a b => a ++ f b) [] ↔ ∃ b ∈ l, x ∈ f b := by
  induction l with
  | nil => simp
  | cons b l ih =>
      rw [List.foldl_cons, foldl_append_init]
      simp [ih]

/-- Membership in a guarded list. -/
theorem mem_ite_nil {α : Type} (c : Prop) [Decidable c] (l : List α) (x : α) :
    x ∈ (if c then l else []) ↔ c ∧ x ∈ l := by
  by_cases hc : c <;> simp [hc]

/-- Membership in the forward-successor list. -/
theorem mem_fwdSucc {S P : Type} [DecidableEq S] (sat : P → Bool)
    (tr : List ((S × P) × List S)) (q x : S) :
    x ∈ fwdSucc sat tr q ↔ ∃ e ∈ tr, e.1.1 = q ∧ sat e.1.2 = true ∧ x ∈ e.2 := by
  rw [fwdSucc, mem_foldl_append]
  constructor
  · rintro ⟨e, he, hx⟩
    rw [mem_ite_nil] at hx
    exact ⟨e, he, hx.1.1, hx.1.2, hx.2⟩
  · rintro ⟨e, he, h1, h2, hx⟩
    exact ⟨e, he, (mem_ite_nil _ _ _).mpr ⟨⟨h1, h2⟩, hx⟩⟩

/-- Membership in the backward-successor list. -/
theorem mem_bwdSucc {S P : Type} [DecidableEq S] (sat : P → Bool)
    (tr : List ((S × P) × List S)) (q x : S) :
    x ∈ bwdSucc sat tr q ↔ ∃ e ∈ tr, sat e.1.2 = true ∧ q ∈ e.2 ∧ x = e.1.1 := by
  rw [bwdSucc, mem_foldl_append]
  constructor
  · rintro ⟨e, he, hx⟩
    rw [mem_ite_nil] at hx
    exact ⟨e, he, hx.1.1, hx.1.2, List.mem_singleton.mp hx.2⟩
  · rintro ⟨e, he, h1, h2, hx⟩
    exact ⟨e, he, (mem_ite_nil _ _ _).mpr ⟨⟨h1, h2⟩, List.mem_singleton.mpr hx⟩⟩

/-- Membership among all transition targets. -/
theorem mem_allTargets {S P : Type} (tr : List ((S × P) × List S)) (x : S) :
    x ∈ allTargets tr ↔ ∃ e ∈ tr, x ∈ e.2 :=
  mem_foldl_append (fun (e : (S × P) × List S) => e.2) tr x

/-- Unpacking membership in a rewritten transition table. -/
theorem of_mem_filterTr {S P : Type} [DecidableEq S] {sts : List S}
    {tr : List ((S × P) × List S)} {e' : (S × P) × List S}
    (h : e' ∈ filterTr sts tr) :
    e'.1.1 ∈ sts ∧ e'.2 ≠ [] ∧ (∀ t ∈ e'.2, t ∈ sts)
      ∧ ∃ ts, (e'.1, ts) ∈ tr ∧ e'.2 = ts.filter (fun t => t ∈ sts) := by
  rcases List.mem_filterMap.mp h with ⟨e, he, hf⟩
  by_cases h1 : e.1.1 ∈ sts
  · rw [if_pos h1] at hf
    by_cases h2 : e.2.filter (fun t => t ∈ sts) = []
    · rw [if_pos h2] at hf; cases hf
    · rw [if_neg h2] at hf
      injection hf with hf'
      subst hf'
      exact ⟨h1, h2, fun t ht => of_decide_eq_true (List.mem_filter.mp ht).2,
        e.2, he, rfl⟩
  · rw [if_neg h1] at hf; cases hf

/-- Packing membership into a rewritten transition table. -/
theorem mem_filterTr_intro {S P : Type} [DecidableEq S] {sts : List S}
    {tr : List ((S × P) × List S)} {e : (S × P) × List S} {t : S}
    (he : e ∈ tr) (hs : e.1.1 ∈ sts) (ht : t ∈ e.2) (hts : t ∈ sts) :
    (e.1, e.2.filter (fun t => t ∈ sts)) ∈ filterTr sts tr
      ∧ t ∈ e.2.filter (fun t => t ∈ sts) := by
  have htf : t ∈ e.2.filter (fun t => t ∈ sts) :=
    List.mem_filter.mpr ⟨ht, decide_eq_true hts⟩
  refine ⟨List.mem_filterMap.mpr ⟨e, he, ?_⟩, htf⟩
  rw [if_pos hs, if_neg (List.ne_nil_of_mem htf)]

/-- Claim C3, amended.  After `minimize` every remaining transition entry
has its source among the machine's states and a nonempty target list
contained in the machine's states — but its guard need not be
satisfiable, because the rewriting keeps every entry between surviving
states regardless of the guard. -/
theorem minimize_transition_wf {S P : Type} [DecidableEq S]
    (sat : P → Bool) (M : SM S P) :
    ∀ e ∈ (minimize sat M).transition,
      e.1.1 ∈ (minimize sat M).states ∧ e.2 ≠ []
        ∧ ∀ t ∈ e.2, t ∈ (minimize sat M).states := by
  intro e he
  have he' : e ∈ filterTr (minimizeStates2 sat M) (minimizeTr1 sat M) := he
  have h := of_mem_filterTr he'
  exact ⟨h.1, h.2.1, h.2.2.1⟩

/-- Claim C3, counterexample.  In `exampleC3` both transitions survive
minimization — including the one guarded by `Bool(false)`, which is
unsatisfiable: `minimize` never filters the rewritten table by
satisfiability. -/
theorem minimize_keeps_unsat_guard :
    (minimize Predicate.satisfiable exampleC3).transition
      = [((0, Predicate.Bool true), [1]), ((0, Predicate.Bool false), [1])]
    ∧ Predicate.satisfiable (Predicate.Bool false) = false :=
  ⟨rfl, rfl⟩

/-- Witness for `minimize_transition_wf` on a concrete entry of
`exampleC3`'s minimized table. -/
theorem minimize_transition_wf_witness :
    ((0, Predicate.Bool true), [1]).1.1 ∈ (minimize Predicate.satisfiable exampleC3).states
    ∧ (((0, Predicate.Bool true), [1]) : (Nat × Predicate) × List Nat).2 ≠ []
    ∧ ∀ t ∈ (((0, Predicate.Bool true), [1]) : (Nat × Predicate) × List Nat).2,
        t ∈ (minimize Predicate.satisfiable exampleC3).states :=
  minimize_transition_wf Predicate.satisfiable exampleC3
    ((0, Predicate.Bool true), [1]) (List.mem_cons_self _ _)

/-- The untouched part of the stack survives `pushNew`. -/
theorem sub_pushNew {S : Type} [DecidableEq S] :
    ∀ (cands reach stack : List S), ∀ x ∈ stack, x ∈ pushNew cands reach stack := by
  intro cands
  induction cands with
  | nil => intro reach stack x hx; exact hx
  | cons c cs ih =>
      intro reach stack x hx
      rw [pushNew, List.foldl_cons]
      by_cases hc : c ∈ reach ∨ c ∈ stack
      · rw [if_pos hc]; exact ih reach stack x hx
      · rw [if_neg hc]; exact ih reach (c :: stack) x (List.mem_cons_of_mem c hx)

/-- `pushNew` prepends a duplicate-free block of genuinely new candidates. -/
theorem pushNew_append {S : Type} [DecidableEq S] :
    ∀ (cands reach stack : List S), ∃ news : List S,
      pushNew cands reach stack = news ++ stack ∧ news.Nodup
        ∧ ∀ x ∈ news, x ∈ cands ∧ x ∉ reach ∧ x ∉ stack := by
  intro cands
  induction cands with
  | nil => intro reach stack; exact ⟨[], rfl, List.nodup_nil, by simp⟩
  | cons c cs ih =>
      intro reach stack
      rw [show pushNew (c :: cs) reach stack
        = pushNew cs reach (if c ∈ reach ∨ c ∈ stack then stack else c :: stack)
        from rfl]
      by_cases hc : c ∈ reach ∨ c ∈ stack
      · rw [if_pos hc]
        obtain ⟨news, h1, h2, h3⟩ := ih reach stack
        exact ⟨news, h1, h2, fun x hx =>
          ⟨List.mem_cons_of_mem c (h3 x hx).1, (h3 x hx).2.1, (h3 x hx).2.2⟩⟩
      · rw [if_neg hc]
        push_neg at hc
        obtain ⟨news, h1, h2, h3⟩ := ih reach (c :: stack)
        refine ⟨news ++ [c], by rw [h1]; simp, ?_, ?_⟩
        · refine h2.append (List.nodup_singleton c) ?_
          intro x hx hx'
          rw [List.mem_singleton] at hx'
          subst hx'
          exact (h3 x hx).2.2 (List.mem_cons_self _ _)
        · intro x hx
          rcases List.mem_append.mp hx with hx | hx
          · obtain ⟨ha, hb, hcc⟩ := h3 x hx
            exact ⟨List.mem_cons_of_mem c ha, hb,
              fun hs => hcc (List.mem_cons_of_mem c hs)⟩
          · rw [List.mem_singleton] at hx
            subst hx
            exact ⟨List.mem_cons_self _ _, hc.1, hc.2⟩

/-- Every candidate ends up either already recorded or on the new stack. -/
theorem pushNew_covers {S : Type} [DecidableEq S] :
    ∀ (cands reach stack : List S), ∀ x ∈ cands,
      x ∈ reach ∨ x ∈ pushNew cands reach stack := by
  intro cands
  induction cands with
  | nil => intro reach stack x hx; cases hx
  | cons c cs ih =>
      intro reach stack x hx
      rw [show pushNew (c :: cs) reach stack
        = pushNew cs reach (if c ∈ reach ∨ c ∈ stack then stack else c :: stack)
        from rfl]
      rcases List.mem_cons.mp hx with hx | hx
      · subst hx
        by_cases hc : x ∈ reach ∨ x ∈ stack
        · rcases hc with hc | hc
          · exact .inl hc
          · rw [if_pos (.inr hc)]
            exact .inr (sub_pushNew cs reach stack x hc)
        · rw [if_neg hc]
          exact .inr (sub_pushNew cs reach (x :: stack) x (List.mem_cons_self _ _))
      · by_cases hc : c ∈ reach ∨ c ∈ stack
        · rw [if_pos hc]; exact ih reach stack x hx
        · rw [if_neg hc]; exact ih reach (c :: stack) x hx

/-- Completeness of the DFS loops of `minimize`: with the invariant that
recorded states have all successors recorded or stacked, and enough fuel
(twice the unexplored universe plus the stack), the result contains the
initial stack and the recorded states and is closed under successors. -/
theorem dfs_complete {S : Type} [DecidableEq S] (succ : S → List S) (U : Finset S)
    (hU : ∀ s : S, ∀ x ∈ succ s, x ∈ U) :
    ∀ (fuel : Nat) (stack reach : List S),
      (∀ a ∈ reach, ∀ x ∈ succ a, x ∈ reach ∨ x ∈ stack) →
      2 * (U \ (reach.toFinset ∪ stack.toFinset)).card + stack.length ≤ fuel →
      (∀ x ∈ reach, x ∈ dfs succ fuel stack reach)
        ∧ (∀ x ∈ stack, x ∈ dfs succ fuel stack reach)
        ∧ (∀ a ∈ dfs succ fuel stack reach, ∀ x ∈ succ a,
            x ∈ dfs succ fuel stack reach) := by
  intro fuel
  induction fuel with
  | zero =>
      intro stack reach hinv hfuel
      cases stack with
      | nil =>
          refine ⟨fun x hx => hx, fun x hx => absurd hx (List.not_mem_nil x), ?_⟩
          intro a ha x hx
          rcases hinv a ha x hx with h | h
          · exact h
          · exact absurd h (List.not_mem_nil x)
      | cons s st => simp at hfuel
  | succ fuel ih =>
      intro stack reach hinv hfuel
      cases stack with
      | nil =>
          refine ⟨fun x hx => hx, fun x hx => absurd hx (List.not_mem_nil x), ?_⟩
          intro a ha x hx
          rcases hinv a ha x hx with h | h
          · exact h
          · exact absurd h (List.not_mem_nil x)
      | cons s st =>
          have hstep : dfs succ (fuel + 1) (s :: st) reach
              = dfs succ fuel (pushNew (succ s) (reach ++ [s]) st) (reach ++ [s]) := rfl
          obtain ⟨news, hn1, hn2, hn3⟩ := pushNew_append (succ s) (reach ++ [s]) st
          have hinv' : ∀ a ∈ reach ++ [s], ∀ x ∈ succ a,
              x ∈ reach ++ [s] ∨ x ∈ pushNew (succ s) (reach ++ [s]) st := by
            intro a ha x hx
            rcases List.mem_append.mp ha with ha | ha
            · rcases hinv a ha x hx with h | h
              · exact .inl (List.mem_append_left _ h)
              · rcases List.mem_cons.mp h with h | h
                · exact .inl (List.mem_append_right _ (h ▸ List.mem_singleton_self _))
                · exact .inr (sub_pushNew _ _ _ x h)
            · rw [List.mem_singleton] at ha
              subst ha
              exact pushNew_covers _ _ _ x hx
          have hfuel' : 2 * (U \ ((reach ++ [s]).toFinset
                ∪ (pushNew (succ s) (reach ++ [s]) st).toFinset)).card
              + (pushNew (succ s) (reach ++ [s]) st).length ≤ fuel := by
            have hlen : (pushNew (succ s) (reach ++ [s]) st).length
                = news.length + st.length := by rw [hn1, List.length_append]
            have hcardN : news.toFinset.card = news.length :=
              List.toFinset_card_of_nodup hn2
            have hNsubA : news.toFinset
                ⊆ U \ (reach.toFinset ∪ (s :: st).toFinset) := by
              intro x hx
              rw [List.mem_toFinset] at hx
              obtain ⟨hc, hr, hs⟩ := hn3 x hx
              rw [Finset.mem_sdiff, Finset.mem_union]
              refine ⟨hU s x hc, ?_⟩
              rintro (h | h)
              · exact hr (List.mem_append_left _ (List.mem_toFinset.mp h))
              · rw [List.mem_toFinset, List.mem_cons] at h
                rcases h with h | h
                · exact hr (List.mem_append_right _ (h ▸ List.mem_singleton_self _))
                · exact hs h
            have hA'sub : U \ ((reach ++ [s]).toFinset
                  ∪ (pushNew (succ s) (reach ++ [s]) st).toFinset)
                ⊆ (U \ (reach.toFinset ∪ (s :: st).toFinset)) \ news.toFinset := by
              intro x hx
              rw [Finset.mem_sdiff, Finset.mem_union] at hx
              rw [Finset.mem_sdiff, Finset.mem_sdiff, Finset.mem_union]
              refine ⟨⟨hx.1, ?_⟩, ?_⟩
              · rintro (h | h)
                · exact hx.2 (.inl (by
                    rw [List.mem_toFinset] at h ⊢
                    exact List.mem_append_left _ h))
                · rw [List.mem_toFinset, List.mem_cons] at h
                  rcases h with h | h
                  · exact hx.2 (.inl (by
                      rw [List.mem_toFinset]
                      exact List.mem_append_right _ (h ▸ List.mem_singleton_self _)))
                  · exact hx.2 (.inr (by
                      rw [List.mem_toFinset]
                      exact sub_pushNew _ _ _ x h))
              · intro h
                rw [List.mem_toFinset] at h
                exact hx.2 (.inr (by
                  rw [List.mem_toFinset, hn1]
                  exact List.mem_append_left _ h))
            have hcard1 : (U \ ((reach ++ [s]).toFinset
                  ∪ (pushNew (succ s) (reach ++ [s]) st).toFinset)).card
                  + news.length
                ≤ (U \ (reach.toFinset ∪ (s :: st).toFinset)).card := by
              have h1 := Finset.card_le_card hA'sub
              have h2 := Finset.card_sdiff hNsubA
              have h3 := Finset.card_le_card hNsubA
              omega
            rw [hlen]
            simp only [List.length_cons] at hfuel
            omega
          obtain ⟨hr, hs, hcl⟩ := ih (pushNew (succ s) (reach ++ [s]) st)
            (reach ++ [s]) hinv' hfuel'
          rw [hstep]
          refine ⟨fun x hx => hr x (List.mem_append_left _ hx), ?_, hcl⟩
          intro x hx
          rcases List.mem_cons.mp hx with hx | hx
          · exact hr x (List.mem_append_right _ (hx ▸ List.mem_singleton_self _))
          · exact hs x (sub_pushNew _ _ _ x hx)

/-- Pass 1 of `minimize` computes a set that contains the initial state
and is closed under satisfiable forward steps. -/
theorem minimizeReach1_spec {S P : Type} [DecidableEq S]
    (sat : P → Bool) (M : SM S P) :
    M.initial_state ∈ minimizeReach1 sat M
      ∧ ∀ a ∈ minimizeReach1 sat M, ∀ x ∈ fwdSucc sat M.transition a,
          x ∈ minimizeReach1 sat M := by
  have hU : ∀ s : S, ∀ x ∈ fwdSucc sat M.transition s,
      x ∈ (allTargets M.transition).toFinset := by
    intro s x hx
    rw [List.mem_toFinset, mem_allTargets]
    obtain ⟨e, he, _, _, hxe⟩ := (mem_fwdSucc sat M.transition s x).mp hx
    exact ⟨e, he, hxe⟩
  have h := dfs_complete (fwdSucc sat M.transition)
    (allTargets M.transition).toFinset hU
    (2 * (allTargets M.transition).length + 2) [M.initial_state] []
    (fun a ha => absurd ha (List.not_mem_nil a))
    (by
      have h1 := Finset.card_le_card
        (Finset.sdiff_subset (s := (allTargets M.transition).toFinset)
          (t := (List.nil).toFinset ∪ ([M.initial_state]).toFinset))
      have h2 := List.toFinset_card_le (allTargets M.transition)
      simp only [List.length_singleton]
      omega)
  exact ⟨h.2.1 M.initial_state (List.mem_singleton_self _), h.2.2⟩

/-- Pass 2 of `minimize` computes a set that contains the surviving final
states and is closed under satisfiable backward steps over the rewritten
table. -/
theorem minimizeReach2_spec {S P : Type} [DecidableEq S]
    (sat : P → Bool) (M : SM S P) :
    (∀ q ∈ minimizeFinals1 sat M, q ∈ minimizeReach2 sat M)
      ∧ ∀ a ∈ minimizeReach2 sat M, ∀ x ∈ bwdSucc sat (minimizeTr1 sat M) a,
          x ∈ minimizeReach2 sat M := by
  have hU : ∀ s : S, ∀ x ∈ bwdSucc sat (minimizeTr1 sat M) s,
      x ∈ ((minimizeTr1 sat M).map (fun e => e.1.1)).toFinset := by
    intro s x hx
    rw [List.mem_toFinset, List.mem_map]
    obtain ⟨e, he, _, _, hxe⟩ := (mem_bwdSucc sat (minimizeTr1 sat M) s x).mp hx
    exact ⟨e, he, hxe.symm⟩
  have h := dfs_complete (bwdSucc sat (minimizeTr1 sat M))
    ((minimizeTr1 sat M).map (fun e => e.1.1)).toFinset hU
    (2 * (minimizeTr1 sat M).length + (minimizeFinals1 sat M).length + 1)
    (minimizeFinals1 sat M).reverse []
    (fun a ha => absurd ha (List.not_mem_nil a))
    (by
      have h1 := Finset.card_le_card
        (Finset.sdiff_subset
          (s := ((minimizeTr1 sat M).map (fun e => e.1.1)).toFinset)
          (t := (List.nil).toFinset ∪ ((minimizeFinals1 sat M).reverse).toFinset))
      have h2 := List.toFinset_card_le ((minimizeTr1 sat M).map (fun e => e.1.1))
      have h3 : ((minimizeTr1 sat M).map (fun e => e.1.1)).length
          = (minimizeTr1 sat M).length := List.length_map _ _
      have h4 : ((minimizeFinals1 sat M).reverse).length
          = (minimizeFinals1 sat M).length := List.length_reverse _
      omega)
  refine ⟨fun q hq => h.2.1 q (List.mem_reverse.mpr hq), h.2.2⟩

/-- Membership in one `runStep`. -/
theorem mem_runStep {S P D : Type} [DecidableEq S] (den : P → D → Bool)
    (tr : List ((S × P) × List S)) (poss : List S) (c : D) (x : S) :
    x ∈ runStep den tr poss c
      ↔ ∃ q ∈ poss, ∃ e ∈ tr, e.1.1 = q ∧ den e.1.2 c = true ∧ x ∈ e.2 := by
  constructor
  · intro hx
    obtain ⟨q, hq, hxq⟩ := (mem_foldl_append
      (fun (q : S) => tr.foldl (fun acc2 (e : (S × P) × List S) =>
        acc2 ++ if e.1.1 = q ∧ den e.1.2 c = true then e.2 else []) [])
      poss x).mp hx
    obtain ⟨e, he, hxe⟩ := (mem_foldl_append
      (fun (e : (S × P) × List S) =>
        if e.1.1 = q ∧ den e.1.2 c = true then e.2 else []) tr x).mp hxq
    rw [mem_ite_nil] at hxe
    exact ⟨q, hq, e, he, hxe.1.1, hxe.1.2, hxe.2⟩
  · rintro ⟨q, hq, e, he, h1, h2, hx⟩
    exact (mem_foldl_append
      (fun (q : S) => tr.foldl (fun acc2 (e : (S × P) × List S) =>
        acc2 ++ if e.1.1 = q ∧ den e.1.2 c = true then e.2 else []) [])
      poss x).mpr
      ⟨q, hq, (mem_foldl_append
        (fun (e : (S × P) × List S) =>
          if e.1.1 = q ∧ den e.1.2 c = true then e.2 else []) tr x).mpr
        ⟨e, he, (mem_ite_nil _ _ _).mpr ⟨⟨h1, h2⟩, hx⟩⟩⟩

/-- A state is live after folding `runStep` over a word exactly when some
starting possibility reaches it along a denoting path. -/
theorem mem_run_foldl {S P D : Type} [DecidableEq S] (den : P → D → Bool)
    (tr : List ((S × P) × List S)) :
    ∀ (w : List D) (poss : List S) (x : S),
      x ∈ w.foldl (runStep den tr) poss ↔ ∃ q ∈ poss, PathFrom tr den w q x := by
  intro w
  induction w with
  | nil =>
      intro poss x
      simp [PathFrom]
  | cons c w ih =>
      intro poss x
      rw [List.foldl_cons, ih]
      constructor
      · rintro ⟨p, hp, hpath⟩
        obtain ⟨q, hq, e, he, h1, h2, hpe⟩ := (mem_runStep den tr poss c p).mp hp
        exact ⟨q, hq, e, he, h1, h2, p, hpe, hpath⟩
      · rintro ⟨q, hq, e, he, h1, h2, p, hpe, hpath⟩
        exact ⟨p, (mem_runStep den tr poss c p).mpr ⟨q, hq, e, he, h1, h2, hpe⟩, hpath⟩

/-- Acceptance through `generalized_run` coincides with the existence of
a denoting path from the initial state to a final state. -/
theorem accepts_iff {S P D : Type} [DecidableEq S] (den : P → D → Bool)
    (M : SM S P) (w : List D) :
    SM.accepts den M w = true
      ↔ ∃ qf, PathFrom M.transition den w M.initial_state qf ∧ qf ∈ M.final_set := by
  rw [SM.accepts, generalized_run, List.any_eq_true]
  constructor
  · rintro ⟨q, hq, hfin⟩
    obtain ⟨i, hi, hpath⟩ := (mem_run_foldl den M.transition w [M.initial_state] q).mp hq
    rw [List.mem_singleton] at hi
    subst hi
    exact ⟨q, hpath, of_decide_eq_true hfin⟩
  · rintro ⟨qf, hpath, hfin⟩
    exact ⟨qf, (mem_run_foldl den M.transition w [M.initial_state] qf).mpr
      ⟨M.initial_state, List.mem_singleton_self _, hpath⟩, decide_eq_true hfin⟩

/-- Paths are preserved by weakening the table entrywise. -/
theorem pathFrom_mono {S P D : Type} (den : P → D → Bool)
    {tr tr' : List ((S × P) × List S)}
    (hsub : ∀ e' ∈ tr', ∃ e ∈ tr, e.1 = e'.1 ∧ ∀ t ∈ e'.2, t ∈ e.2) :
    ∀ (w : List D) (q q' : S), PathFrom tr' den w q q' → PathFrom tr den w q q' := by
  intro w
  induction w with
  | nil => intro q q' h; exact h
  | cons c w ih =>
      rintro q q' ⟨e', he', h1, h2, t, ht, hpath⟩
      obtain ⟨e, he, heq, hts⟩ := hsub e' he'
      exact ⟨e, he, heq ▸ h1, heq ▸ h2, t, hts t ht, ih t q' hpath⟩

/-- Every entry of the minimized table weakens an entry of the original
table (same source and guard, fewer targets). -/
theorem minimize_tr_sub {S P : Type} [DecidableEq S] (sat : P → Bool) (M : SM S P) :
    ∀ e' ∈ (minimize sat M).transition,
      ∃ e ∈ M.transition, e.1 = e'.1 ∧ ∀ t ∈ e'.2, t ∈ e.2 := by
  intro e' he'
  have he2 : e' ∈ filterTr (minimizeStates2 sat M) (minimizeTr1 sat M) := he'
  obtain ⟨_, _, _, ts1, hts1, hf1⟩ := of_mem_filterTr he2
  have hts1' : (e'.1, ts1) ∈ filterTr (minimizeReach1 sat M) M.transition := hts1
  obtain ⟨_, _, _, ts0, hts0, hf0⟩ := of_mem_filterTr hts1'
  have hts0' : (e'.1, ts0) ∈ M.transition := hts0
  have hf0' : ts1 = ts0.filter (fun t => t ∈ minimizeReach1 sat M) := hf0
  refine ⟨(e'.1, ts0), hts0', rfl, ?_⟩
  intro t ht
  rw [hf1] at ht
  have ht1 : t ∈ ts1 := (List.mem_filter.mp ht).1
  rw [hf0'] at ht1
  exact (List.mem_filter.mp ht1).1

/-- The minimized final set refines the original one. -/
theorem minimize_finals_sub {S P : Type} [DecidableEq S] (sat : P → Bool) (M : SM S P) :
    ∀ q ∈ (minimize sat M).final_set, q ∈ M.final_set := by
  intro q hq
  have hq' : q ∈ (minimizeFinals1 sat M).filter
      (fun q => q ∈ minimizeStates2 sat M) := hq
  have hq1 : q ∈ minimizeFinals1 sat M := (List.mem_filter.mp hq').1
  exact (List.mem_filter.mp hq1).1

/-- States visited by a denoting path from a pass-1-reachable state stay
pass-1 reachable (a denoting guard is satisfiable). -/
theorem path_fwd_reach {S P D : Type} [DecidableEq S] (sat : P → Bool)
    (den : P → D → Bool) (hden : ∀ p c, den p c = true → sat p = true)
    (M : SM S P) :
    ∀ (w : List D) (q q' : S), PathFrom M.transition den w q q' →
      q ∈ minimizeReach1 sat M → q' ∈ minimizeReach1 sat M := by
  intro w
  induction w with
  | nil => intro q q' h hq; exact h ▸ hq
  | cons c w ih =>
      rintro q q' ⟨e, he, h1, h2, t, ht, hpath⟩ hq
      refine ih t q' hpath ?_
      exact (minimizeReach1_spec sat M).2 q hq t
        ((mem_fwdSucc sat M.transition q t).mpr ⟨e, he, h1, hden _ c h2, ht⟩)

/-- A denoting path from a pass-1-reachable state survives the pass-1
rewriting of the table. -/
theorem path_lift1 {S P D : Type} [DecidableEq S] (sat : P → Bool)
    (den : P → D → Bool) (hden : ∀ p c, den p c = true → sat p = true)
    (M : SM S P) :
    ∀ (w : List D) (q q' : S), PathFrom M.transition den w q q' →
      q ∈ minimizeReach1 sat M → PathFrom (minimizeTr1 sat M) den w q q' := by
  intro w
  induction w with
  | nil => intro q q' h _; exact h
  | cons c w ih =>
      rintro q q' ⟨e, he, h1, h2, t, ht, hpath⟩ hq
      have hqe : e.1.1 ∈ minimizeReach1 sat M := h1 ▸ hq
      have htr : t ∈ minimizeReach1 sat M :=
        (minimizeReach1_spec sat M).2 q hq t
          ((mem_fwdSucc sat M.transition q t).mpr ⟨e, he, h1, hden _ c h2, ht⟩)
      obtain ⟨hmem, htf⟩ := mem_filterTr_intro he hqe ht htr
      exact ⟨(e.1, e.2.filter (fun s => s ∈ minimizeReach1 sat M)), hmem,
        h1, h2, t, htf, ih t q' hpath htr⟩

/-- States from which a denoting path over the rewritten table reaches a
pass-2-reachable state are pass-2 reachable themselves. -/
theorem path_bwd_reach {S P D : Type} [DecidableEq S] (sat : P → Bool)
    (den : P → D → Bool) (hden : ∀ p c, den p c = true → sat p = true)
    (M : SM S P) :
    ∀ (w : List D) (q q' : S), PathFrom (minimizeTr1 sat M) den w q q' →
      q' ∈ minimizeReach2 sat M → q ∈ minimizeReach2 sat M := by
  intro w
  induction w with
  | nil => intro q q' h hq; exact h ▸ hq
  | cons c w ih =>
      rintro q q' ⟨e, he, h1, h2, t, ht, hpath⟩ hq'
      have htr : t ∈ minimizeReach2 sat M := ih t q' hpath hq'
      exact (minimizeReach2_spec sat M).2 t htr q
        ((mem_bwdSucc sat (minimizeTr1 sat M) t q).mpr
          ⟨e, he, hden _ c h2, ht, h1.symm⟩)

/-- A denoting path over the pass-1 table whose endpoint is pass-2
reachable survives the pass-2 rewriting. -/
theorem path_lift2 {S P D : Type} [DecidableEq S] (sat : P → Bool)
    (den : P → D → Bool) (hden : ∀ p c, den p c = true → sat p = true)
    (M : SM S P) :
    ∀ (w : List D) (q q' : S), PathFrom (minimizeTr1 sat M) den w q q' →
      q' ∈ minimizeReach2 sat M →
      PathFrom (filterTr (minimizeStates2 sat M) (minimizeTr1 sat M)) den w q q' := by
  intro w
  induction w with
  | nil => intro q q' h _; exact h
  | cons c w ih =>
      rintro q q' ⟨e, he, h1, h2, t, ht, hpath⟩ hq'
      have htr2 : t ∈ minimizeReach2 sat M :=
        path_bwd_reach sat den hden M w t q' hpath hq'
      have hqr2 : q ∈ minimizeReach2 sat M :=
        (minimizeReach2_spec sat M).2 t htr2 q
          ((mem_bwdSucc sat (minimizeTr1 sat M) t q).mpr
            ⟨e, he, hden _ c h2, ht, h1.symm⟩)
      have hqe : e.1.1 ∈ minimizeStates2 sat M :=
        h1 ▸ List.mem_append_left _ hqr2
      have hts : t ∈ minimizeStates2 sat M := List.mem_append_left _ htr2
      obtain ⟨hmem, htf⟩ := mem_filterTr_intro he hqe ht hts
      exact ⟨(e.1, e.2.filter (fun s => s ∈ minimizeStates2 sat M)), hmem,
        h1, h2, t, htf, ih t q' hpath hq'⟩

/-- Claim C8.  `minimize` preserves the accepted language: a word drives
the minimized machine from its initial state into its final set exactly
when it does so on the original machine.  The hypothesis ties denotation
to satisfiability (`BoolAlg` instances have `denote p c → satisfiable p`;
for `Predicate` this is `denote_imp_satisfiable`). -/
theorem minimize_preserves_language {S P D : Type} [DecidableEq S]
    (sat : P → Bool) (den : P → D → Bool)
    (hden : ∀ p c, den p c = true → sat p = true) (M : SM S P) (w : List D) :
    SM.accepts den (minimize sat M) w = SM.accepts den M w := by
  have h1 : SM.accepts den (minimize sat M) w = true ↔ SM.accepts den M w = true := by
    rw [accepts_iff, accepts_iff]
    constructor
    · rintro ⟨qf, hpath, hfin⟩
      exact ⟨qf, pathFrom_mono den (minimize_tr_sub sat M) w _ qf hpath,
        minimize_finals_sub sat M qf hfin⟩
    · rintro ⟨qf, hpath, hfin⟩
      have hinit1 : M.initial_state ∈ minimizeReach1 sat M :=
        (minimizeReach1_spec sat M).1
      have hqf1 : qf ∈ minimizeReach1 sat M :=
        path_fwd_reach sat den hden M w M.initial_state qf hpath hinit1
      have hqfF1 : qf ∈ minimizeFinals1 sat M :=
        List.mem_filter.mpr ⟨hfin, decide_eq_true hqf1⟩
      have hqf2 : qf ∈ minimizeReach2 sat M :=
        (minimizeReach2_spec sat M).1 qf hqfF1
      have hpath1 : PathFrom (minimizeTr1 sat M) den w M.initial_state qf :=
        path_lift1 sat den hden M w M.initial_state qf hpath hinit1
      have hpath2 := path_lift2 sat den hden M w M.initial_state qf hpath1 hqf2
      refine ⟨qf, hpath2, ?_⟩
      show qf ∈ (minimizeFinals1 sat M).filter (fun q => q ∈ minimizeStates2 sat M)
      exact List.mem_filter.mpr
        ⟨hqfF1, decide_eq_true (List.mem_append_left _ hqf2)⟩
  cases hmin : SM.accepts den (minimize sat M) w with
  | true => exact (h1.mp hmin).symm
  | false =>
      cases horig : SM.accepts den M w with
      | true => exact absurd (h1.mpr horig) (by rw [hmin]; simp)
      | false => rfl

/-- Witness for `minimize_preserves_language` on a concrete machine and
word, the satisfiability hypothesis discharged by
`denote_imp_satisfiable`. -/
theorem minimize_preserves_language_witness :
    SM.accepts Predicate.denote (minimize Predicate.satisfiable exampleC8) ['a']
      = SM.accepts Predicate.denote exampleC8 ['a'] :=
  minimize_preserves_language Predicate.satisfiable Predicate.denote
    denote_imp_satisfiable exampleC8 ['a']
